import Mathlib

/-!
Verification of the audio alignment and render pipeline
(`api/align.py`, `api/audio_ops.py`, `api/transitions.py`,
`audio_processing_service/main.py`, `supabase/functions/generate-mashup/index.py`).

Modelling conventions:

* Audio buffers are modelled as single-channel `List ℚ` (or `List ℝ` where the
  source applies transcendental functions: `tanh`, `10 ** (db/20)`).  The
  source operates channel-by-channel on numpy arrays; every property below is
  per-channel, so one channel suffices and lengths are sample counts.
* Python floats are modelled by exact rationals (reals for transcendental
  values).  All concrete inputs used in theorems below are chosen so that the
  corresponding IEEE-754 double computations are exact, hence the rational
  model and the float program agree on them.
* Python `int(x)` truncates toward zero; `pyInt` below mirrors this.
* Python `%` on integers returns a result with the sign of the divisor; for the
  positive divisor 12 this agrees with Lean's `Int.emod`.
* A musical key string such as "C#m" is modelled by its pitch class (the index
  computed by `KEYS.index(k.replace("m",""))`) and its mode (`k.endswith("m")`);
  this is exactly the information the source functions read from the string.
* Functions that can raise (`assert`, `IndexError` on `segs[0]`, negative
  `np.zeros` size, `np.max` of an empty array) return `Except`/`Option`.
-/

/-- A musical key: pitch class 0..11 (index into
`KEYS = ["C","C#","D","D#","E","F","F#","G","G#","A","A#","B"]`) and mode
(minor iff the source string ends in "m").  From `api/align.py`. -/
structure Key where
  pc : Fin 12
  minor : Bool
deriving DecidableEq

/-- C major, the default returned by `choose_target_key` on an empty input
(`if not keys: return "C"`). -/
def keyCmaj : Key := ⟨0, false⟩

/-- D major (pitch class 2). -/
def keyDmaj : Key := ⟨2, false⟩

/-- F# major (pitch class 6, the tritone from C). -/
def keyFsmaj : Key := ⟨6, false⟩

/-- D minor ("Dm"). -/
def keyDmin : Key := ⟨2, true⟩

/-- Pitch-class core of `semitone_distance` from `api/align.py`:
`up = (d - s) % 12`, `down = -((s - d) % 12)`, return the one of smaller
absolute value, preferring `up` on ties (`<=` in the source). -/
def sd_pc (s d : Fin 12) : ℤ :=
  let up := ((d : ℤ) - (s : ℤ)) % 12
  let down := -(((s : ℤ) - (d : ℤ)) % 12)
  if up.natAbs ≤ down.natAbs then up else down

/-- `semitone_distance(src, dst)` from `api/align.py`.  The source strips a
trailing "m" before indexing into `KEYS`, i.e. it reads only the pitch class. -/
def semitone_distance (src dst : Key) : ℤ := sd_pc src.pc dst.pc

/-- Cost accumulated for one candidate inside `choose_target_key`
(`api/align.py`): `sum over k of abs(semitone_distance(k, cand))`, plus 1
whenever the modes of `k` and `cand` differ. -/
def keyCost (keys : List Key) (cand : Key) : ℤ :=
  (keys.map (fun k => ((semitone_distance k cand).natAbs : ℤ) +
    (if k.minor ≠ cand.minor then 1 else 0))).sum

/-- One iteration of the candidate loop in `choose_target_key`:
`if cost < best_cost: best, best_cost = cand, cost`.  The accumulator starts at
`(None, 1e9)`; `1e9` is exact in ℚ. -/
def ctkStep (keys : List Key) (acc : Option Key × ℚ) (cand : Key) : Option Key × ℚ :=
  if (keyCost keys cand : ℚ) < acc.2 then (some cand, (keyCost keys cand : ℚ)) else acc

/-- The candidate loop of `choose_target_key`, parametrised by the enumeration
order `cands` of the candidate set.  The source iterates `set(keys)`, whose
enumeration order Python does not fix (it depends on string hashing); any
duplicate-free enumeration of the distinct keys is a possible run. -/
def chooseTargetKeyWith (cands keys : List Key) : Option Key :=
  (cands.foldl (ctkStep keys) (none, 10 ^ 9)).1

/-- `choose_target_key(keys)` from `api/align.py`: `"C"` on an empty input,
otherwise the candidate loop over `set(keys)` (modelled here with `dedup` as
one concrete enumeration of the distinct keys).  The loop can leave
`best = None`, so the result is an `Option`. -/
def choose_target_key (keys : List Key) : Option Key :=
  if keys = [] then some keyCmaj else chooseTargetKeyWith keys.dedup keys

/-- `plan_shifts(per_track_keys, target_key)` from `api/align.py`, at its
default keyword arguments `vocal_shift_limit = 3`, `music_shift_limit = 6`
(the call in `generate-mashup/index.py` uses the defaults).  The dict is
modelled as an association list. -/
def plan_shifts (per_track_keys : List (String × Key)) (target_key : Key) :
    List (String × ℤ) × ℤ × ℤ :=
  (per_track_keys.map (fun p => (p.1, semitone_distance p.2 target_key)), 3, 6)

/-- The clamp applied by the consumer (`generate-mashup/index.py`, line 62):
`shift = max(min(shift, lim), -lim)`. -/
def clampShift (shift lim : ℤ) : ℤ := max (min shift lim) (-lim)

/-- Role-dependent limit selection (`generate-mashup/index.py`, line 61):
`lim = vocal_limit if stem_name == "vocals" else music_limit`. -/
def stemLimit (vocalLim musicLim : ℤ) (stem_name : String) : ℤ :=
  if stem_name = "vocals" then vocalLim else musicLim

/-- Python `int()` applied to a float: truncation toward zero. -/
def pyInt (q : ℚ) : ℤ := if q < 0 then ⌈q⌉ else ⌊q⌋

/-- `np.linspace a b m` (endpoint included), with the numpy conventions
`linspace a b 0 = []` and `linspace a b 1 = [a]`. -/
def linspace (a b : ℚ) : ℕ → List ℚ
  | 0 => []
  | 1 => [a]
  | m + 2 => (List.range (m + 2)).map (fun i : ℕ => a + (b - a) * (i : ℚ) / ((m : ℚ) + 1))

/-- Three-list pointwise combination (numpy elementwise arithmetic on three
equal-length arrays; on unequal lengths numpy raises, and every use below is at
equal lengths). -/
def zipWith3 (f : α → β → γ → δ) : List α → List β → List γ → List δ
  | a :: as, b :: bs, c :: cs => f a b c :: zipWith3 f as bs cs
  | _, _, _ => []

/-- Failures of `stretch_to_grid_piecewise`: the beat-count `assert`, and the
`IndexError` raised by `segs[0]` when every slice was skipped. -/
inductive AlignError where
  | insufficientBeats
  | emptySegs
deriving DecidableEq

/-- `_xfade(a, b, sr, ms)` from `api/audio_ops.py`: a linear crossfade of the
last `n = int(sr*ms/1000)` samples of `a` with the first `n` of `b`
(`n <= 0` degenerates to plain concatenation). -/
def xfade (a b : List ℚ) (sr : ℚ) (ms : ℚ) : List ℚ :=
  let n := (pyInt (sr * ms / 1000)).toNat
  if n = 0 then a ++ b
  else
    let a_tail := a.drop (a.length - n)
    let b_head := b.take n
    let cross := zipWith3 (fun w x z => (1 - w) * x + w * z) (linspace 0 1 n) a_tail b_head
    a.take (a.length - n) ++ cross ++ b.drop n

/-- The pad/trim step of `stretch_to_grid_piecewise`: truncate to `tgt`
samples, or pad with trailing zeros up to `tgt`. -/
def padTrim (s : List ℚ) (tgt : ℕ) : List ℚ :=
  if tgt < s.length then s.take tgt
  else s ++ List.replicate (tgt - s.length) 0

/-- Elements at even positions 0, 2, 4, … of a list. -/
def evenIdx : List α → List α
  | [] => []
  | [a] => [a]
  | a :: _ :: t => a :: evenIdx t

/-- The merge loop closing `stretch_to_grid_piecewise`:
`out = segs[0]; for j in range(1, len(segs), 2): out = concat(out, segs[j])`,
i.e. `segs[0]` followed by the elements of `segs` at odd indices 1, 3, 5, …
(the elements of `segs[1:]` at even positions); `segs[0]` raises `IndexError`
on an empty `segs`. -/
def mergeSegs : List (List ℚ) → Except AlignError (List ℚ)
  | [] => .error .emptySegs
  | s0 :: rest => .ok (s0 ++ (evenIdx rest).flatten)

/-- One iteration of the slice loop of `stretch_to_grid_piecewise`
(`api/audio_ops.py`, lines 49-69), for the interval pair
`((s0, s1), (t0, t1))`.  `prim` is the external uniform time-stretch primitive
(`time_stretch_uniform`, i.e. rubberband), which receives the chunk and the
rate; its output is immediately padded/trimmed to exactly `tgt_len` samples.
The source also computes `src_len = int((s1-s0)*sr)` but never uses it.
Slices shorter than 32 samples are skipped.  When `segs` is non-empty the
source overwrites the last element with `_xfade(segs[-1], stretched)` and then
appends `stretched` again as a placeholder. -/
def segStep (prim : List ℚ → ℚ → List ℚ) (y : List ℚ) (sr : ℚ)
    (segs : List (List ℚ)) (p : (ℚ × ℚ) × (ℚ × ℚ)) : List (List ℚ) :=
  let s0 := p.1.1
  let s1 := p.1.2
  let t0 := p.2.1
  let t1 := p.2.2
  let tgt_len : ℤ := pyInt ((t1 - t0) * sr)
  let chunk := (y.take (pyInt (s1 * sr)).toNat).drop (pyInt (s0 * sr)).toNat
  if chunk.length < 32 then segs
  else
    let rate := (chunk.length : ℚ) / ((max tgt_len 1 : ℤ) : ℚ)
    let stretched := padTrim (prim chunk rate) tgt_len.toNat
    match segs with
    | [] => [stretched]
    | _ => segs.dropLast ++ [xfade (segs.getLastD []) stretched sr 12, stretched]

/-- `stretch_to_grid_piecewise(y, sr, src_beats, tgt_beats)` from
`api/audio_ops.py`.  The `assert len(src_beats) >= 2 and len(tgt_beats) >= 2`
is the `insufficientBeats` error.  The loop runs over
`range(min(len(src_beats)-1, len(tgt_beats)-1))`, realised here by zipping
consecutive beat pairs.  The final merge is
`out = segs[0]; for j in range(1, len(segs), 2): out = concat(out, segs[j])`,
i.e. `segs[0]` followed by the elements of `segs` at odd indices; on an empty
`segs` the source raises `IndexError`. -/
def stretch_to_grid_piecewise (prim : List ℚ → ℚ → List ℚ) (y : List ℚ) (sr : ℚ)
    (src_beats tgt_beats : List ℚ) : Except AlignError (List ℚ) :=
  if 2 ≤ src_beats.length ∧ 2 ≤ tgt_beats.length then
    let pairs := (src_beats.zip src_beats.tail).zip (tgt_beats.zip tgt_beats.tail)
    mergeSegs (pairs.foldl (segStep prim y sr) [])
  else .error .insufficientBeats

/-- `s_curve_xfade(a, b, sr, bars, bpm)` from `api/transitions.py`:
`sec = 60.0/bpm*4*bars`; `n = int(sec*sr)`; `a` is replaced by its last `n`
samples when longer than `n`, `b` by its first `n`; the tanh S-curve weight is
applied over `t = linspace(-1, 1, len(b))`; the final
`concatenate([out, b[n:]]) if b.shape[0] > n` tests the already-truncated `b`. -/
noncomputable def s_curve_xfade (a b : List ℝ) (sr : ℚ) (bars : ℕ) (bpm : ℚ) : List ℝ :=
  let sec : ℚ := 60 / bpm * 4 * bars
  let n := (pyInt (sec * sr)).toNat
  let a2 := if n < a.length then a.drop (a.length - n) else a
  let b2 := if n < b.length then b.take n else b
  let w := (linspace (-1) 1 b2.length).map (fun t : ℚ => (1 / 2 : ℝ) * (1 + Real.tanh (3 * (t : ℝ))))
  let out := zipWith3 (fun wi x z => (1 - wi) * x + wi * z) w a2 b2
  if n < b2.length then out ++ b2.drop n else out

/-- `apply_gain_db(y, db)` from `api/audio_ops.py` and
`audio_processing_service/audio_ops.py`: `y * (10.0 ** (db / 20.0))`. -/
noncomputable def apply_gain_db (y : List ℝ) (db : ℝ) : List ℝ :=
  y.map (fun x => x * (10 : ℝ) ^ (db / 20))

/-- A timeline layer as consumed by `render_mashup_streamer`
(`audio_processing_service/main.py`): a `(songId, stem)` reference and an
optional `volume_db` gain. -/
structure Layer where
  songId : String
  stem : String
  volume_db : Option ℝ

/-- A timeline section: `duration_sec` (the source reads it with
`section.get('duration_sec', 10)`) and its layers. -/
structure Section where
  duration_sec : Option ℚ
  layers : List Layer

/-- The per-layer body of the section loop in `render_mashup_streamer`
(`audio_processing_service/main.py`, lines 106-116): truncate the stem to the
section length, apply `apply_gain_db` when `volume_db` is present, pad with
trailing zeros up to the section length. -/
noncomputable def renderLayer (n : ℕ) (buf : List ℝ) (vol : Option ℝ) : List ℝ :=
  let seg := buf.take n
  let seg := match vol with
    | some db => apply_gain_db seg db
    | none => seg
  if seg.length < n then seg ++ List.replicate (n - seg.length) 0 else seg

/-- `section_audio += segment` for one layer: numpy `+=` on equal-shape
arrays is pointwise addition (`renderLayer` always yields exactly `n`
samples, matching the accumulator). -/
noncomputable def mixLayer (n : ℕ) (stems : String → String → List ℝ)
    (acc : List ℝ) (layer : Layer) : List ℝ :=
  List.zipWith (· + ·) acc (renderLayer n (stems layer.songId layer.stem) layer.volume_db)

/-- The section renderer of `render_mashup_streamer`
(`audio_processing_service/main.py`, lines 94-116): allocate
`np.zeros(int(duration_sec * sr))` (per channel) and add every prepared layer
into it.  `np.zeros` raises on a negative size, hence the `Option`.
`stems` maps `(songId, stem)` to the decoded stem buffer. -/
noncomputable def renderSection (sr : ℚ) (sec : Section)
    (stems : String → String → List ℝ) : Option (List ℝ) :=
  let n := pyInt ((sec.duration_sec.getD 10) * sr)
  if n < 0 then none
  else some (sec.layers.foldl (mixLayer n.toNat stems) (List.replicate n.toNat 0))

/-- `np.max(np.abs(y))` for a non-empty buffer: since every `|x|` is
non-negative, folding `max` from 0 computes exactly the maximum of the
absolute values. -/
def peakAbs (y : List ℚ) : ℚ := (y.map (fun x => |x|)).foldl max 0

/-- The final normalization of `render_mashup`
(`supabase/functions/generate-mashup/index.py`, lines 88-91):
`peak = np.max(np.abs(master)); if peak > 0: master = master * (0.98 / peak)`.
`np.max` raises on an empty array, hence the `Option`. -/
def finalizeMix (master : List ℚ) : Option (List ℚ) :=
  if master = [] then none
  else if 0 < peakAbs master then
    some (master.map (fun x => x * (49 / 50 / peakAbs master)))
  else some master

theorem pyInt_of_nonneg {q : ℚ} (h : 0 ≤ q) : pyInt q = ⌊q⌋ := by
  rw [pyInt, if_neg (not_lt.mpr h)]

theorem stemLimit_nonneg (role : String) : 0 ≤ stemLimit 3 6 role := by
  rw [stemLimit]; split <;> norm_num

theorem abs_clampShift_le {s l : ℤ} (h : 0 ≤ l) : |clampShift s l| ≤ l := by
  rw [clampShift, abs_le]
  exact ⟨le_max_right _ _, max_le (min_le_right _ _) (by omega)⟩

theorem ctk_foldl_snd_le (keys : List Key) :
    ∀ (cands : List Key) (acc : Option Key × ℚ),
      (cands.foldl (ctkStep keys) acc).2 ≤ acc.2 := by
  intro cands
  induction cands with
  | nil => intro acc; exact le_refl _
  | cons c cs ih =>
    intro acc
    simp only [List.foldl_cons]
    refine le_trans (ih _) ?_
    by_cases hlt : (keyCost keys c : ℚ) < acc.2
    · simp only [ctkStep, if_pos hlt]; exact hlt.le
    · simp only [ctkStep, if_neg hlt]; exact le_refl _

theorem ctk_foldl_le_costs (keys : List Key) :
    ∀ (cands : List Key) (acc : Option Key × ℚ), ∀ c ∈ cands,
      (cands.foldl (ctkStep keys) acc).2 ≤ (keyCost keys c : ℚ) := by
  intro cands
  induction cands with
  | nil => intro acc c hc; cases hc
  | cons d cs ih =>
    intro acc c hc
    simp only [List.foldl_cons]
    rcases List.mem_cons.mp hc with rfl | hc
    · refine le_trans (ctk_foldl_snd_le keys cs _) ?_
      by_cases hlt : (keyCost keys c : ℚ) < acc.2
      · simp only [ctkStep, if_pos hlt]; exact le_refl _
      · simp only [ctkStep, if_neg hlt]; exact le_of_not_lt hlt
    · exact ih _ c hc

theorem ctk_foldl_some (keys : List Key) :
    ∀ (cands : List Key) (acc : Option Key × ℚ),
      (∀ b, acc.1 = some b → acc.2 = (keyCost keys b : ℚ)) →
      ∀ b, (cands.foldl (ctkStep keys) acc).1 = some b →
        (cands.foldl (ctkStep keys) acc).2 = (keyCost keys b : ℚ) ∧
        (b ∈ cands ∨ acc.1 = some b) := by
  intro cands
  induction cands with
  | nil => intro acc hinv b hb; exact ⟨hinv b hb, Or.inr hb⟩
  | cons c cs ih =>
    intro acc hinv b hb
    simp only [List.foldl_cons] at hb ⊢
    by_cases hlt : (keyCost keys c : ℚ) < acc.2
    · rw [show ctkStep keys acc c = (some c, (keyCost keys c : ℚ)) from by
        simp only [ctkStep, if_pos hlt]] at hb ⊢
      obtain ⟨h1, h2⟩ := ih (some c, (keyCost keys c : ℚ))
        (by intro b' hb'; simp only [Option.some.injEq] at hb'; subst hb'; rfl) b hb
      refine ⟨h1, ?_⟩
      rcases h2 with h2 | h2
      · exact Or.inl (List.mem_cons_of_mem _ h2)
      · simp only [Option.some.injEq] at h2; subst h2
        exact Or.inl (List.mem_cons_self _ _)
    · rw [show ctkStep keys acc c = acc from by
        simp only [ctkStep, if_neg hlt]] at hb ⊢
      obtain ⟨h1, h2⟩ := ih acc hinv b hb
      exact ⟨h1, h2.imp_left (List.mem_cons_of_mem _)⟩

theorem ctk_foldl_none (keys : List Key) :
    ∀ (cands : List Key) (acc : Option Key × ℚ),
      (cands.foldl (ctkStep keys) acc).1 = none →
      acc.1 = none ∧ (cands.foldl (ctkStep keys) acc).2 = acc.2 := by
  intro cands
  induction cands with
  | nil => intro acc h; exact ⟨h, rfl⟩
  | cons c cs ih =>
    intro acc h
    simp only [List.foldl_cons] at h ⊢
    by_cases hlt : (keyCost keys c : ℚ) < acc.2
    · rw [show ctkStep keys acc c = (some c, (keyCost keys c : ℚ)) from by
        simp only [ctkStep, if_pos hlt]] at h
      obtain ⟨h1, -⟩ := ih _ h
      cases h1
    · rw [show ctkStep keys acc c = acc from by
        simp only [ctkStep, if_neg hlt]] at h ⊢
      exact ih acc h

theorem ctk_foldl_strict (keys : List Key) :
    ∀ (cands : List Key) (bc : ℚ) (b : Key),
      (cands.foldl (ctkStep keys) (none, bc)).1 = some b →
      (cands.foldl (ctkStep keys) (none, bc)).2 < bc := by
  intro cands
  induction cands with
  | nil => intro bc b hb; exact absurd hb (by simp)
  | cons c cs ih =>
    intro bc b hb
    simp only [List.foldl_cons] at hb ⊢
    by_cases hlt : (keyCost keys c : ℚ) < bc
    · rw [show ctkStep keys (none, bc) c = (some c, (keyCost keys c : ℚ)) from by
        simp only [ctkStep, if_pos hlt]] at hb ⊢
      exact lt_of_le_of_lt (ctk_foldl_snd_le keys cs _) hlt
    · rw [show ctkStep keys (none, bc) c = (none, bc) from by
        simp only [ctkStep, if_neg hlt]] at hb ⊢
      exact ih bc b hb

/-- C7: `semitone_distance` returns an integer in [-6, 6] that depends only on
the pitch classes of its arguments; it is antisymmetric
(`semitone_distance a b = -semitone_distance b a`) except when the pitch
classes are exactly 6 semitones apart, in which case both argument orders
return the upward value +6; and `semitone_distance k k = 0` for every key. -/
theorem semitone_distance_props :
    (∀ a b : Key, -6 ≤ semitone_distance a b ∧ semitone_distance a b ≤ 6) ∧
    (∀ a b a' b' : Key, a.pc = a'.pc → b.pc = b'.pc →
      semitone_distance a b = semitone_distance a' b') ∧
    (∀ a b : Key, ((b.pc : ℤ) - (a.pc : ℤ)) % 12 = 6 →
      semitone_distance a b = 6 ∧ semitone_distance b a = 6) ∧
    (∀ a b : Key, ((b.pc : ℤ) - (a.pc : ℤ)) % 12 ≠ 6 →
      semitone_distance a b = -semitone_distance b a) ∧
    (∀ k : Key, semitone_distance k k = 0) := by
  refine ⟨?_, ?_, ?_, ?_, ?_⟩
  · have h : ∀ s d : Fin 12, -6 ≤ sd_pc s d ∧ sd_pc s d ≤ 6 := by decide
    exact fun a b => h a.pc b.pc
  · intro a b a' b' h1 h2
    simp only [semitone_distance, h1, h2]
  · have h : ∀ s d : Fin 12, ((d : ℤ) - (s : ℤ)) % 12 = 6 →
        sd_pc s d = 6 ∧ sd_pc d s = 6 := by decide
    exact fun a b => h a.pc b.pc
  · have h : ∀ s d : Fin 12, ((d : ℤ) - (s : ℤ)) % 12 ≠ 6 →
        sd_pc s d = -sd_pc d s := by decide
    exact fun a b => h a.pc b.pc
  · have h : ∀ s : Fin 12, sd_pc s s = 0 := by decide
    exact fun k => h k.pc

/-- Witness for C7 at concrete keys: C/D are 2 apart (antisymmetric case),
C/F# are a tritone apart (both orders give +6). -/
theorem semitone_distance_props_witness :
    semitone_distance keyCmaj keyCmaj = 0 ∧
    ((keyDmaj.pc : ℤ) - (keyCmaj.pc : ℤ)) % 12 ≠ 6 ∧
    semitone_distance keyCmaj keyDmaj = -semitone_distance keyDmaj keyCmaj ∧
    ((keyFsmaj.pc : ℤ) - (keyCmaj.pc : ℤ)) % 12 = 6 ∧
    semitone_distance keyCmaj keyFsmaj = 6 ∧ semitone_distance keyFsmaj keyCmaj = 6 := by
  refine ⟨semitone_distance_props.2.2.2.2 keyCmaj, by decide,
    semitone_distance_props.2.2.2.1 keyCmaj keyDmaj (by decide), by decide, ?_, ?_⟩
  · exact (semitone_distance_props.2.2.1 keyCmaj keyFsmaj (by decide)).1
  · exact (semitone_distance_props.2.2.1 keyCmaj keyFsmaj (by decide)).2

/-- C6: `plan_shifts` maps each track id to exactly
`semitone_distance(trackKey, target)`, returns the default limits
`vocal_shift_limit = 3` and `music_shift_limit = 6`, and for every entry of
the plan and every stem role the applied shift
`clamp(shift, -lim, lim)` (with `lim` chosen by role) satisfies
`|appliedShift| <= lim`. -/
theorem plan_shifts_spec (ptk : List (String × Key)) (target : Key) :
    (plan_shifts ptk target).2.1 = 3 ∧ (plan_shifts ptk target).2.2 = 6 ∧
    (∀ p ∈ ptk, (p.1, semitone_distance p.2 target) ∈ (plan_shifts ptk target).1) ∧
    (∀ s ∈ (plan_shifts ptk target).1, ∀ role : String,
      |clampShift s.2 (stemLimit (plan_shifts ptk target).2.1 (plan_shifts ptk target).2.2 role)| ≤
        stemLimit (plan_shifts ptk target).2.1 (plan_shifts ptk target).2.2 role) := by
  refine ⟨rfl, rfl, ?_, ?_⟩
  · intro p hp
    exact List.mem_map.mpr ⟨p, hp, rfl⟩
  · intro s hs role
    exact abs_clampShift_le (stemLimit_nonneg role)

/-- Witness for C6: the spec's own scenario `plan_shifts({"t1": "Dm"}, "C")`
gives the raw shift -2, and clamping at the vocal limit keeps it in range. -/
theorem plan_shifts_spec_witness :
    (plan_shifts [("t1", keyDmin)] keyCmaj).2.1 = 3 ∧
    ("t1", (-2 : ℤ)) ∈ (plan_shifts [("t1", keyDmin)] keyCmaj).1 ∧
    |clampShift (-2) (stemLimit 3 6 "vocals")| ≤ stemLimit 3 6 "vocals" := by
  have h := plan_shifts_spec [("t1", keyDmin)] keyCmaj
  have hmem := h.2.2.1 ("t1", keyDmin) (by simp)
  rw [show semitone_distance keyDmin keyCmaj = -2 from by decide] at hmem
  exact ⟨h.1, hmem, h.2.2.2 ("t1", -2) hmem "vocals"⟩

/-- C5 (amended): `choose_target_key` returns C major on the empty list; on a
non-empty list in which some candidate's total cost is below the `1e9`
sentinel it returns one of the keys present in the input that minimises
`keyCost` (sum of absolute semitone distances plus mode-mismatch penalties). -/
theorem choose_target_key_spec :
    choose_target_key [] = some keyCmaj ∧
    ∀ keys : List Key, keys ≠ [] →
      (∃ c ∈ keys, (keyCost keys c : ℚ) < 10 ^ 9) →
      ∃ k, choose_target_key keys = some k ∧ k ∈ keys ∧
        ∀ c ∈ keys, keyCost keys k ≤ keyCost keys c := by
  constructor
  · simp [choose_target_key]
  · intro keys hne hex
    obtain ⟨c, hck, hclt⟩ := hex
    rw [choose_target_key, if_neg hne, chooseTargetKeyWith]
    have hcd : c ∈ keys.dedup := List.mem_dedup.mpr hck
    have hle : (keys.dedup.foldl (ctkStep keys) (none, 10 ^ 9)).2 ≤ (keyCost keys c : ℚ) :=
      ctk_foldl_le_costs keys keys.dedup _ c hcd
    cases hopt : (keys.dedup.foldl (ctkStep keys) (none, (10 ^ 9 : ℚ))).1 with
    | none =>
      obtain ⟨-, h2⟩ := ctk_foldl_none keys keys.dedup _ hopt
      rw [h2] at hle
      exact absurd (lt_of_le_of_lt hle hclt) (lt_irrefl _)
    | some k =>
      obtain ⟨hval, hmem⟩ := ctk_foldl_some keys keys.dedup (none, 10 ^ 9)
        (by intro b hb; cases hb) k hopt
      have hk : k ∈ keys := by
        rcases hmem with h | h
        · exact List.mem_dedup.mp h
        · cases h
      refine ⟨k, rfl, hk, ?_⟩
      intro c' hc'
      have hle' := ctk_foldl_le_costs keys keys.dedup (none, (10 ^ 9 : ℚ)) c'
        (List.mem_dedup.mpr hc')
      rw [hval] at hle'
      exact_mod_cast hle'

/-- Witness for C5 at a concrete two-key input: the returned key is present in
the input and has minimal cost. -/
theorem choose_target_key_spec_witness :
    ∃ k, choose_target_key [keyCmaj, keyDmaj] = some k ∧ k ∈ [keyCmaj, keyDmaj] ∧
      ∀ c ∈ [keyCmaj, keyDmaj],
        keyCost [keyCmaj, keyDmaj] k ≤ keyCost [keyCmaj, keyDmaj] c := by
  apply choose_target_key_spec.2 [keyCmaj, keyDmaj] (by simp)
  refine ⟨keyCmaj, by simp, ?_⟩
  rw [show keyCost [keyCmaj, keyDmaj] keyCmaj = 2 from by decide]
  norm_num

theorem choose_target_key_sentinel (N : ℕ) (hN : 10 ^ 9 ≤ 6 * N) :
    choose_target_key (List.replicate N keyCmaj ++ List.replicate N keyFsmaj) = none := by
  have hfCC : ((semitone_distance keyCmaj keyCmaj).natAbs : ℤ) +
      (if keyCmaj.minor ≠ keyCmaj.minor then 1 else 0) = 0 := by decide
  have hfFC : ((semitone_distance keyFsmaj keyCmaj).natAbs : ℤ) +
      (if keyFsmaj.minor ≠ keyCmaj.minor then 1 else 0) = 6 := by decide
  have hfCF : ((semitone_distance keyCmaj keyFsmaj).natAbs : ℤ) +
      (if keyCmaj.minor ≠ keyFsmaj.minor then 1 else 0) = 6 := by decide
  have hfFF : ((semitone_distance keyFsmaj keyFsmaj).natAbs : ℤ) +
      (if keyFsmaj.minor ≠ keyFsmaj.minor then 1 else 0) = 0 := by decide
  set L := List.replicate N keyCmaj ++ List.replicate N keyFsmaj with hL
  have hne : L ≠ [] := by
    rw [hL]
    intro h
    have hlen := congrArg List.length h
    rw [List.length_append, List.length_replicate, List.length_nil] at hlen
    omega
  have hcostC : keyCost L keyCmaj = 6 * (N : ℤ) := by
    rw [hL, keyCost, List.map_append, List.sum_append, List.map_replicate,
      List.map_replicate, List.sum_replicate, List.sum_replicate]
    rw [hfCC, hfFC, smul_zero, nsmul_eq_mul]
    ring
  have hcostF : keyCost L keyFsmaj = 6 * (N : ℤ) := by
    rw [hL, keyCost, List.map_append, List.sum_append, List.map_replicate,
      List.map_replicate, List.sum_replicate, List.sum_replicate]
    rw [hfCF, hfFF, smul_zero, nsmul_eq_mul]
    ring
  have hbig : ∀ cand ∈ L.dedup, keyCost L cand = 6 * (N : ℤ) := by
    intro cand hc
    rcases List.mem_append.mp (List.mem_dedup.mp hc) with h | h
    · rw [List.eq_of_mem_replicate h, hcostC]
    · rw [List.eq_of_mem_replicate h, hcostF]
  rw [choose_target_key, if_neg hne, chooseTargetKeyWith]
  cases hopt : (L.dedup.foldl (ctkStep L) (none, (10 ^ 9 : ℚ))).1 with
  | none => rfl
  | some b =>
    exfalso
    have hstrict := ctk_foldl_strict L L.dedup (10 ^ 9) b hopt
    obtain ⟨hval, hmem⟩ := ctk_foldl_some L L.dedup (none, 10 ^ 9)
      (by intro b2 hb2; cases hb2) b hopt
    rw [hval] at hstrict
    rcases hmem with h | h
    · rw [hbig b h] at hstrict
      have hge : (10 ^ 9 : ℚ) ≤ ((6 * (N : ℤ) : ℤ) : ℚ) := by exact_mod_cast hN
      exact absurd (lt_of_le_of_lt hge hstrict) (lt_irrefl _)
    · cases h

/-- C5 counterexample: on a non-empty input whose every candidate has cost at
least `1e9` (2·10⁸ copies of C against 2·10⁸ copies of F#, tritone distance 6,
so each candidate costs 1.2·10⁹), the loop comparison `cost < 1e9` never
fires, `best` stays `None`, and `choose_target_key` returns no key at all —
refuting the claim that every non-empty input yields a key from the input. -/
theorem choose_target_key_sentinel_counterexample :
    choose_target_key
      (List.replicate 200000000 keyCmaj ++ List.replicate 200000000 keyFsmaj) = none :=
  choose_target_key_sentinel 200000000 (by norm_num)

/-- C9 (amended): for every enumeration order of the candidate set (with some
candidate under the `1e9` sentinel), the candidate loop returns a candidate of
minimal cost — the enumeration order of `set(keys)` can only influence which
equal-cost minimiser wins. -/
theorem chooseTargetKeyWith_minimizes (keys cands : List Key)
    (hex : ∃ c ∈ cands, (keyCost keys c : ℚ) < 10 ^ 9) :
    ∃ k, chooseTargetKeyWith cands keys = some k ∧ k ∈ cands ∧
      ∀ c ∈ cands, keyCost keys k ≤ keyCost keys c := by
  obtain ⟨c, hck, hclt⟩ := hex
  rw [chooseTargetKeyWith]
  have hle : (cands.foldl (ctkStep keys) (none, 10 ^ 9)).2 ≤ (keyCost keys c : ℚ) :=
    ctk_foldl_le_costs keys cands _ c hck
  cases hopt : (cands.foldl (ctkStep keys) (none, (10 ^ 9 : ℚ))).1 with
  | none =>
    obtain ⟨-, h2⟩ := ctk_foldl_none keys cands _ hopt
    rw [h2] at hle
    exact absurd (lt_of_le_of_lt hle hclt) (lt_irrefl _)
  | some k =>
    obtain ⟨hval, hmem⟩ := ctk_foldl_some keys cands (none, 10 ^ 9)
      (by intro b hb; cases hb) k hopt
    have hk : k ∈ cands := by
      rcases hmem with h | h
      · exact h
      · cases h
    refine ⟨k, rfl, hk, ?_⟩
    intro c' hc'
    have hle' := ctk_foldl_le_costs keys cands (none, (10 ^ 9 : ℚ)) c' hc'
    rw [hval] at hle'
    exact_mod_cast hle'

/-- Witness for C9's amended statement at a concrete enumeration. -/
theorem chooseTargetKeyWith_minimizes_witness :
    ∃ k, chooseTargetKeyWith [keyCmaj] [keyCmaj] = some k ∧ k ∈ [keyCmaj] ∧
      ∀ c ∈ [keyCmaj], keyCost [keyCmaj] k ≤ keyCost [keyCmaj] c := by
  apply chooseTargetKeyWith_minimizes [keyCmaj] [keyCmaj]
  refine ⟨keyCmaj, by simp, ?_⟩
  rw [show keyCost [keyCmaj] keyCmaj = 0 from by decide]
  norm_num

/-- C9 counterexample: C major and D major tie (cost 2 each), and the two
possible enumeration orders of the candidate set {C, D} make the loop return
different keys.  The source iterates `set(keys)`, whose order is the
hash-dependent order of an unordered collection, so the tie-break is *not* a
fixed, input-determined enumeration order. -/
theorem choose_target_key_order_counterexample :
    chooseTargetKeyWith [keyCmaj, keyDmaj] [keyCmaj, keyDmaj] = some keyCmaj ∧
    chooseTargetKeyWith [keyDmaj, keyCmaj] [keyCmaj, keyDmaj] = some keyDmaj ∧
    some keyCmaj ≠ some keyDmaj := by
  have hC : (keyCost [keyCmaj, keyDmaj] keyCmaj : ℚ) = 2 := by
    rw [show keyCost [keyCmaj, keyDmaj] keyCmaj = 2 from by decide]
    norm_num
  have hD : (keyCost [keyCmaj, keyDmaj] keyDmaj : ℚ) = 2 := by
    rw [show keyCost [keyCmaj, keyDmaj] keyDmaj = 2 from by decide]
    norm_num
  refine ⟨?_, ?_, by decide⟩
  · simp only [chooseTargetKeyWith, List.foldl_cons, List.foldl_nil, ctkStep]
    rw [hC, hD]
    norm_num
  · simp only [chooseTargetKeyWith, List.foldl_cons, List.foldl_nil, ctkStep]
    rw [hC, hD]
    norm_num

theorem gain_factor_add (a b : ℝ) :
    (10 : ℝ) ^ (a / 20) * (10 : ℝ) ^ (b / 20) = (10 : ℝ) ^ ((a + b) / 20) := by
  rw [← Real.rpow_add (by norm_num : (0:ℝ) < 10), div_add_div_same]

/-- C10: `apply_gain_db` is a homomorphism from decibel addition to amplitude
scaling: a gain of 0 dB is the identity, and applying gains `a` then `b`
equals applying the single gain `a + b`. -/
theorem apply_gain_db_hom :
    ∀ (y : List ℝ) (a b : ℝ),
      apply_gain_db y 0 = y ∧
      apply_gain_db (apply_gain_db y a) b = apply_gain_db y (a + b) := by
  intro y a b
  constructor
  · simp [apply_gain_db]
  · induction y with
    | nil => rfl
    | cons x xs ih =>
      simp only [apply_gain_db, List.map_cons] at ih ⊢
      rw [List.cons.injEq]
      exact ⟨by rw [mul_assoc, gain_factor_add], ih⟩

theorem foldl_max_init_le (l : List ℚ) : ∀ init : ℚ, init ≤ l.foldl max init := by
  induction l with
  | nil => intro init; exact le_refl _
  | cons c t ih =>
    intro init
    simp only [List.foldl_cons]
    exact le_trans (le_max_left init c) (ih (max init c))

theorem mem_le_foldl_max {x : ℚ} (l : List ℚ) : ∀ init : ℚ, x ∈ l → x ≤ l.foldl max init := by
  induction l with
  | nil => intro init h; cases h
  | cons c t ih =>
    intro init h
    simp only [List.foldl_cons]
    rcases List.mem_cons.mp h with rfl | h
    · exact le_trans (le_max_right init x) (foldl_max_init_le t _)
    · exact ih _ h

theorem peakAbs_nonneg (y : List ℚ) : 0 ≤ peakAbs y := foldl_max_init_le _ 0

theorem mem_abs_le_peakAbs {x : ℚ} {y : List ℚ} (h : x ∈ y) : |x| ≤ peakAbs y :=
  mem_le_foldl_max _ 0 (List.mem_map_of_mem _ h)

/-- C4: on a non-empty master buffer, `finalizeMix` leaves a zero-peak
(all-silent) buffer unchanged and raises no error, and on a nonzero-peak
buffer it scales every sample by `0.98 / peak`, so every output sample has
absolute value at most 0.98. -/
theorem finalizeMix_spec (master : List ℚ) (hne : master ≠ []) :
    (peakAbs master = 0 → finalizeMix master = some master) ∧
    (peakAbs master ≠ 0 →
      finalizeMix master = some (master.map (fun x => x * (49 / 50 / peakAbs master))) ∧
      ∀ out, finalizeMix master = some out → ∀ x ∈ out, |x| ≤ 49 / 50) := by
  constructor
  · intro h0
    rw [finalizeMix, if_neg hne, if_neg (by rw [h0]; exact lt_irrefl 0)]
  · intro hp
    have hpos : 0 < peakAbs master := lt_of_le_of_ne (peakAbs_nonneg master) (Ne.symm hp)
    have heq : finalizeMix master = some (master.map fun x => x * (49 / 50 / peakAbs master)) := by
      rw [finalizeMix, if_neg hne, if_pos hpos]
    refine ⟨heq, ?_⟩
    intro out hout x hx
    rw [heq, Option.some.injEq] at hout
    subst hout
    rcases List.mem_map.mp hx with ⟨z, hz, rfl⟩
    have hzle : |z| ≤ peakAbs master := mem_abs_le_peakAbs hz
    have hcnn : 0 ≤ 49 / 50 / peakAbs master := div_nonneg (by norm_num) hpos.le
    have habs : |z * (49 / 50 / peakAbs master)| = |z| * (49 / 50 / peakAbs master) := by
      rw [abs_mul, abs_of_nonneg hcnn]
    rw [habs]
    calc |z| * (49 / 50 / peakAbs master)
        ≤ peakAbs master * (49 / 50 / peakAbs master) :=
          mul_le_mul_of_nonneg_right hzle hcnn
      _ = 49 / 50 := by field_simp; ring

/-- Witness for C4 on the one-sample buffer `[1/2]`: the peak is 1/2, the
output is the buffer rescaled by `0.98 / 0.5`, and its samples stay at or
below 0.98 in magnitude. -/
theorem finalizeMix_spec_witness :
    peakAbs [(1 : ℚ)/2] ≠ 0 ∧
    finalizeMix [(1 : ℚ)/2] =
      some ([(1 : ℚ)/2].map (fun x => x * (49 / 50 / peakAbs [(1 : ℚ)/2]))) ∧
    ∀ out, finalizeMix [(1 : ℚ)/2] = some out → ∀ x ∈ out, |x| ≤ 49 / 50 := by
  have habs : |(1 : ℚ)/2| = 1/2 := abs_of_nonneg (by norm_num)
  have hpk : peakAbs [(1 : ℚ)/2] = 1/2 := by
    simp [peakAbs, habs]
  have hne0 : peakAbs [(1 : ℚ)/2] ≠ 0 := by rw [hpk]; norm_num
  obtain ⟨heq, hb⟩ := (finalizeMix_spec [(1 : ℚ)/2] (by simp)).2 hne0
  exact ⟨hne0, heq, hb⟩

theorem apply_gain_db_length (y : List ℝ) (db : ℝ) :
    (apply_gain_db y db).length = y.length := by
  simp [apply_gain_db]

theorem renderLayer_length (n : ℕ) (buf : List ℝ) (vol : Option ℝ) :
    (renderLayer n buf vol).length = n := by
  have key : ∀ s : List ℝ, s.length ≤ n →
      (if s.length < n then s ++ List.replicate (n - s.length) (0:ℝ) else s).length = n := by
    intro s hs
    by_cases hlt : s.length < n
    · rw [if_pos hlt, List.length_append, List.length_replicate]; omega
    · rw [if_neg hlt]; omega
  cases vol with
  | none =>
    simp only [renderLayer]
    exact key _ (by rw [List.length_take]; omega)
  | some db =>
    simp only [renderLayer]
    exact key _ (by rw [apply_gain_db_length, List.length_take]; omega)

theorem mixFold_length (n : ℕ) (stems : String → String → List ℝ) :
    ∀ (layers : List Layer) (acc : List ℝ), acc.length = n →
      (layers.foldl (mixLayer n stems) acc).length = n := by
  intro layers
  induction layers with
  | nil => intro acc h; exact h
  | cons l ls ih =>
    intro acc h
    simp only [List.foldl_cons]
    exact ih _ (by rw [mixLayer, List.length_zipWith, renderLayer_length, h]; omega)

/-- C3: `renderSection` allocates a silence buffer of
`int(duration_sec * sr)` samples, mixes every (optionally gain-scaled,
truncated or zero-padded) layer into it, and the returned section buffer's
length always equals the declared section duration in samples, regardless of
the layers' lengths. -/
theorem renderSection_length (sr : ℚ) (sec : Section) (stems : String → String → List ℝ)
    (h : 0 ≤ pyInt ((sec.duration_sec.getD 10) * sr)) :
    ∃ out, renderSection sr sec stems = some out ∧
      out.length = (pyInt ((sec.duration_sec.getD 10) * sr)).toNat := by
  simp only [renderSection]
  rw [if_neg (not_lt.mpr h)]
  exact ⟨_, rfl, mixFold_length _ stems sec.layers _ (List.length_replicate _ _)⟩

/-- Witness for C3: a 5-second section at 4 Hz with one short, gained layer
renders to exactly 20 samples. -/
theorem renderSection_length_witness :
    ∃ out,
      renderSection 4 ⟨some 5, [⟨"t1", "vocals", some (-3)⟩]⟩ (fun _ _ => [1, 2]) = some out ∧
      out.length = 20 := by
  have h0 : pyInt ((((⟨some 5, [⟨"t1", "vocals", some (-3)⟩]⟩ : Section).duration_sec).getD 10) * 4)
      = 20 := by
    show pyInt ((5 : ℚ) * 4) = 20
    rw [pyInt_of_nonneg (by norm_num)]
    norm_num
  obtain ⟨out, h1, h2⟩ := renderSection_length 4 ⟨some 5, [⟨"t1", "vocals", some (-3)⟩]⟩
    (fun _ _ => [1, 2]) (by rw [h0]; norm_num)
  refine ⟨out, h1, ?_⟩
  rw [h2, h0]
  rfl

theorem linspace_length (a b : ℚ) (m : ℕ) : (linspace a b m).length = m := by
  match m with
  | 0 => rfl
  | 1 => rfl
  | k + 2 => simp only [linspace, List.length_map, List.length_range]

theorem zipWith3_length (f : α → β → γ → δ) :
    ∀ (as : List α) (bs : List β) (cs : List γ),
      (zipWith3 f as bs cs).length = min as.length (min bs.length cs.length) := by
  intro as
  induction as with
  | nil =>
    intro bs cs
    cases bs <;> cases cs <;> simp [zipWith3]
  | cons a as ih =>
    intro bs cs
    cases bs with
    | nil => cases cs <;> simp [zipWith3]
    | cons b bs =>
      cases cs with
      | nil => simp [zipWith3]
      | cons c cs =>
        simp only [zipWith3, List.length_cons, ih]
        omega

/-- C2 (code bug): `s_curve_xfade` on a 100-sample master and a 100-sample
next section, with a 50-sample fade window (`sr = 25`, `bars = 1`,
`bpm = 120`, so `n = int(60/120 * 4 * 1 * 25) = 50`), returns only the
50-sample blended window instead of the claimed
`len(master) + len(next) - n = 150` samples: the source replaces `a` by
`a[-n:]` and `b` by `b[:n]` before judging `b.shape[0] > n`, so the
pass-through concatenation branch is dead code and both `master[:-n]` and
`next[n:]` are dropped. -/
theorem s_curve_xfade_length_of_long (a b : List ℝ) (sr : ℚ) (bars : ℕ) (bpm : ℚ)
    (ha : (pyInt (60 / bpm * 4 * (bars : ℚ) * sr)).toNat < a.length)
    (hb : (pyInt (60 / bpm * 4 * (bars : ℚ) * sr)).toNat < b.length) :
    (s_curve_xfade a b sr bars bpm).length =
      (pyInt (60 / bpm * 4 * (bars : ℚ) * sr)).toNat := by
  simp only [s_curve_xfade]
  set N := (pyInt (60 / bpm * 4 * (bars : ℚ) * sr)).toNat with hN
  rw [if_pos ha, if_pos hb]
  have hb2len : (b.take N).length = N := by rw [List.length_take]; omega
  rw [hb2len, if_neg (lt_irrefl N), zipWith3_length, List.length_map, linspace_length,
    hb2len, List.length_drop]
  omega

theorem s_curve_xfade_length_bug :
    (s_curve_xfade (List.replicate 100 (1:ℝ)) (List.replicate 100 (2:ℝ)) 25 1 120).length = 50 ∧
    (50 : ℕ) ≠ 100 + 100 - 50 := by
  have hn50 : (pyInt (60 / 120 * 4 * ((1:ℕ) : ℚ) * 25)).toNat = 50 := by
    have h : pyInt (60 / 120 * 4 * ((1:ℕ) : ℚ) * 25) = 50 := by
      rw [pyInt_of_nonneg (by norm_num)]
      norm_num
    rw [h]
    rfl
  refine ⟨?_, by norm_num⟩
  rw [s_curve_xfade_length_of_long _ _ _ _ _
    (by rw [hn50, List.length_replicate]; norm_num)
    (by rw [hn50, List.length_replicate]; norm_num), hn50]

/-- C8: `stretch_to_grid_piecewise` fails (the beat-count `assert` raises
rather than returning a buffer) whenever either beat sequence has fewer than
2 entries; there is no silent fallback. -/
theorem stretch_to_grid_insufficient_beats (prim : List ℚ → ℚ → List ℚ) (y : List ℚ)
    (sr : ℚ) (src_beats tgt_beats : List ℚ)
    (h : src_beats.length < 2 ∨ tgt_beats.length < 2) :
    stretch_to_grid_piecewise prim y sr src_beats tgt_beats = .error .insufficientBeats := by
  simp only [stretch_to_grid_piecewise]
  rw [if_neg (by intro hc; rcases h with h | h <;> omega)]

/-- Witness for C8: a single-beat source grid is rejected. -/
theorem stretch_to_grid_insufficient_beats_witness :
    ([(0 : ℚ)].length < 2 ∨ ([(0 : ℚ), 1].length < 2)) ∧
    stretch_to_grid_piecewise (fun c _ => c) [] 44100 [0] [0, 1] =
      .error .insufficientBeats :=
  ⟨Or.inl (by norm_num), stretch_to_grid_insufficient_beats (fun c _ => c) [] 44100 [0] [0, 1]
    (Or.inl (by norm_num))⟩

theorem padTrim_length (s : List ℚ) (tgt : ℕ) : (padTrim s tgt).length = tgt := by
  rw [padTrim]
  by_cases h : tgt < s.length
  · rw [if_pos h, List.length_take]; omega
  · rw [if_neg h, List.length_append, List.length_replicate]; omega

theorem xfade_length (a b : List ℚ) (sr ms : ℚ)
    (ha : (pyInt (sr * ms / 1000)).toNat ≤ a.length)
    (hb : (pyInt (sr * ms / 1000)).toNat ≤ b.length) :
    (xfade a b sr ms).length = a.length + b.length - (pyInt (sr * ms / 1000)).toNat := by
  simp only [xfade]
  by_cases h0 : (pyInt (sr * ms / 1000)).toNat = 0
  · rw [if_pos h0, List.length_append]; omega
  · rw [if_neg h0, List.length_append, List.length_append, zipWith3_length, linspace_length,
      List.length_take, List.length_drop, List.length_take, List.length_drop]
    omega

/-- C1 (code bug): on a 1-second buffer at 100 Hz with
`src_beats = [0, 0.5, 1.0]` and `tgt_beats = [0, 0.6, 1.2]` (all slice and
interval computations exact in IEEE doubles), the claimed output length is the
sum of the target interval lengths, 60 + 60 = 120 samples — but the merge loop
`out = segs[0]; for j in range(1, len(segs), 2): out = concat(out, segs[j])`
re-appends the placeholder segment that the crossfade already consumed, so the
code returns 179 samples (the 119-sample crossfaded pair followed by the
second 60-sample segment again).  The stretch primitive is irrelevant to the
length because every stretched slice is padded/trimmed to exactly the target
length; it is instantiated with the identity. -/
theorem stretch_to_grid_piecewise_length_bug :
    (stretch_to_grid_piecewise (fun c _ => c) (List.replicate 100 (0:ℚ)) 100
        [0, 1/2, 1] [0, 3/5, 6/5]).toOption.map List.length = some 179 ∧
    (pyInt (((3:ℚ)/5 - 0) * 100)).toNat + (pyInt (((6:ℚ)/5 - (3:ℚ)/5) * 100)).toNat = 120 ∧
    (179 : ℕ) ≠ 120 := by
  have ez0 : pyInt ((0:ℚ) * 100) = 0 := by
    rw [pyInt_of_nonneg (by norm_num)]; norm_num
  have ez50 : pyInt ((1:ℚ)/2 * 100) = 50 := by
    rw [pyInt_of_nonneg (by norm_num)]; norm_num
  have ez100 : pyInt ((1:ℚ) * 100) = 100 := by
    rw [pyInt_of_nonneg (by norm_num)]; norm_num
  have ezt1 : pyInt (((3:ℚ)/5 - 0) * 100) = 60 := by
    rw [pyInt_of_nonneg (by norm_num)]; norm_num
  have ezt2 : pyInt (((6:ℚ)/5 - (3:ℚ)/5) * 100) = 60 := by
    rw [pyInt_of_nonneg (by norm_num)]; norm_num
  have ezn : pyInt ((100:ℚ) * 12 / 1000) = 1 := by
    rw [pyInt_of_nonneg (by norm_num)]; norm_num
  refine ⟨?_, by rw [ezt1, ezt2]; rfl, by norm_num⟩
  simp only [stretch_to_grid_piecewise]
  rw [if_pos (show (2 ≤ ([0, 1/2, 1] : List ℚ).length ∧ 2 ≤ ([0, 3/5, 6/5] : List ℚ).length)
    from by constructor <;> simp)]
  rw [show (([0, 1/2, 1] : List ℚ).zip ([0, 1/2, 1] : List ℚ).tail).zip
      (([0, 3/5, 6/5] : List ℚ).zip ([0, 3/5, 6/5] : List ℚ).tail) =
      [(((0:ℚ), (1:ℚ)/2), ((0:ℚ), (3:ℚ)/5)), (((1:ℚ)/2, (1:ℚ)), ((3:ℚ)/5, (6:ℚ)/5))] from rfl]
  simp only [List.foldl_cons, List.foldl_nil, segStep]
  rw [ez0, ez50, ez100, ezt1, ezt2]
  simp only [Int.toNat_ofNat, Int.toNat_zero]
  have h1 : (List.drop 0 (List.take (Int.toNat 50) (List.replicate 100 (0:ℚ)))).length = 50 := by
    simp
  have h2 : (List.drop (Int.toNat 50) (List.take (Int.toNat 100) (List.replicate 100 (0:ℚ)))).length = 50 := by
    simp
  rw [h1, h2]
  simp only [if_neg (show ¬((50:ℕ) < 32) from by norm_num)]
  have hdl : ([padTrim (List.drop 0 (List.take (Int.toNat 50) (List.replicate 100 (0:ℚ))))
      (Int.toNat 60)] : List (List ℚ)).dropLast = [] := rfl
  have hgl : ([padTrim (List.drop 0 (List.take (Int.toNat 50) (List.replicate 100 (0:ℚ))))
      (Int.toNat 60)] : List (List ℚ)).getLastD [] =
      padTrim (List.drop 0 (List.take (Int.toNat 50) (List.replicate 100 (0:ℚ))))
        (Int.toNat 60) := rfl
  rw [hdl, hgl, List.nil_append]
  set ST1 := padTrim (List.drop 0 (List.take (Int.toNat 50) (List.replicate 100 (0:ℚ))))
    (Int.toNat 60) with hST1
  set ST2 := padTrim (List.drop (Int.toNat 50) (List.take (Int.toNat 100)
    (List.replicate 100 (0:ℚ)))) (Int.toNat 60) with hST2
  simp only [mergeSegs, evenIdx, List.flatten_cons, List.flatten_nil, List.append_nil,
    Except.toOption, Option.map_some]
  refine congrArg some ?_
  rw [List.length_append]
  have hxf := xfade_length ST1 ST2 100 12
    (by rw [ezn, hST1, padTrim_length]; decide)
    (by rw [ezn, hST2, padTrim_length]; decide)
  rw [hxf, hST1, hST2]
  simp only [padTrim_length]
  rw [ezn]
  decide
